import Mathlib

/-!
# Verification of the continual-learning training core

Shallow embedding of the continual-ranking repository's core components:

* `DataModule._make_set_splits` (src/continual_ranking/dpr/data/data_module.py):
  slicing a shuffled dataset into task chunks by cumulative boundaries;
* `BiEncoder.configure_scheduler`'s `lr_lambda`
  (src/continual_ranking/dpr/models/biencoder.py): linear warmup / linear decay
  learning-rate factor;
* `BiEncoder._shared_step`'s positive-context index computation;
* the `EWC` strategy (src/continual_ranking/continual_learning/ewc.py):
  parameter snapshots, diagonal Fisher estimation, penalty injection;
* `Experiment.run_training`'s task-id assignment
  (src/continual_ranking/experiment/experiment.py).

Python tensors are modelled as flattened lists of rationals, Python dicts of
tensors as association lists keyed by parameter name, and fallible dict
indexing (`KeyError`) as `Option`.
-/

namespace ContinualRanking

/-! ## Python list slicing

`data[a:b]` for non-negative `a`, `b`: the elements at indices
`a ≤ j < min b (data.length)`; empty when `b ≤ a`.  Natural-number truncated
subtraction makes `(data.drop a).take (b - a)` match this exactly. -/

def pySlice {α : Type*} (data : List α) (a b : ℕ) : List α :=
  (data.drop a).take (b - a)

/-! ## DataModule._make_set_splits

```python
if self.cfg.run_type.baseline:
    chunks = data[:chunk_sizes[-1]]
    chunks = [TrainingDataset(chunks, self.cfg.negatives_amount)]
else:
    for i in range(len(chunk_sizes) - 1):
        slice_ = data[chunk_sizes[i]: chunk_sizes[i + 1]]
        chunks.append(slice_)
    chunks = [TrainingDataset(chunk, self.cfg.negatives_amount) for chunk in chunks]
```

`data` is the already-shuffled dataset (`random.shuffle` happens just before),
and `chunk_sizes` the effective boundary list (the optional
`split_size`-rescaling `[int(size * split_size) for size in chunk_sizes]`
precedes both branches and only changes which list arrives here).  The
`TrainingDataset` wrapper preserves the records of its chunk, so chunks are
kept as plain lists; `chunk_sizes[-1]` is `getLastD 0` (the claims only
concern non-empty boundary lists).  The loop body slices between consecutive
boundaries, which is `List.zipWith` of `pySlice` over the boundary list and
its tail. -/

def _make_set_splits {α : Type*} (baseline : Bool) (chunk_sizes : List ℕ)
    (data : List α) : List (List α) :=
  if baseline then
    [data.take (chunk_sizes.getLastD 0)]
  else
    List.zipWith (fun a b => pySlice data a b) chunk_sizes chunk_sizes.tail

/-! ### Basic slicing lemmas -/

theorem pySlice_length {α : Type*} (data : List α) {a b : ℕ}
    (hbN : b ≤ data.length) :
    (pySlice data a b).length = b - a := by
  simp [pySlice]
  omega

theorem pySlice_append {α : Type*} (data : List α) {a b c : ℕ}
    (hab : a ≤ b) (hbc : b ≤ c) :
    pySlice data a b ++ pySlice data b c = pySlice data a c := by
  unfold pySlice
  have hdrop : data.drop b = (data.drop a).drop (b - a) := by
    rw [List.drop_drop]
    congr 1
    omega
  rw [hdrop, ← List.take_add]
  congr 1
  omega

theorem pySlice_self {α : Type*} (data : List α) (a : ℕ) :
    pySlice data a a = [] := by
  simp [pySlice]

/-- For a `≤`-chain the head is at most the last element. -/
theorem chain_head_le_getLastD {b : ℕ} {l : List ℕ}
    (h : List.Chain' (· ≤ ·) (b :: l)) : b ≤ (b :: l).getLastD 0 := by
  induction l generalizing b with
  | nil => simp
  | cons c l ih =>
    have hbc : b ≤ c := List.chain'_cons.mp h |>.1
    have htail : List.Chain' (· ≤ ·) (c :: l) := List.chain'_cons.mp h |>.2
    calc b ≤ c := hbc
    _ ≤ (c :: l).getLastD 0 := ih htail
    _ = (b :: c :: l).getLastD 0 := by simp

/-- Concatenating the consecutive slices recovers the slice from the first
boundary to the last. -/
theorem join_splits {α : Type*} (data : List α) :
    ∀ (b : ℕ) (l : List ℕ), List.Chain' (· ≤ ·) (b :: l) →
      (List.zipWith (fun x y => pySlice data x y) (b :: l) l).flatten =
        pySlice data b ((b :: l).getLastD 0) := by
  intro b l
  induction l generalizing b with
  | nil =>
    intro _
    simp [pySlice_self]
  | cons c l ih =>
    intro h
    have hbc : b ≤ c := List.chain'_cons.mp h |>.1
    have htail : List.Chain' (· ≤ ·) (c :: l) := List.chain'_cons.mp h |>.2
    have hc : c ≤ (c :: l).getLastD 0 := chain_head_le_getLastD htail
    calc (List.zipWith (fun x y => pySlice data x y) (b :: c :: l) (c :: l)).flatten
        = pySlice data b c ++
            (List.zipWith (fun x y => pySlice data x y) (c :: l) l).flatten := by
          simp [List.zipWith]
      _ = pySlice data b c ++ pySlice data c ((c :: l).getLastD 0) := by
          rw [ih c htail]
      _ = pySlice data b ((c :: l).getLastD 0) := pySlice_append data hbc hc
      _ = pySlice data b ((b :: c :: l).getLastD 0) := by simp

/-- A `≤`-chain gives pointwise order between consecutive `getD` entries. -/
theorem chain_getD_le {B : List ℕ} (hmono : List.Chain' (· ≤ ·) B)
    {i : ℕ} (hi : i + 1 < B.length) : B.getD i 0 ≤ B.getD (i + 1) 0 := by
  have h1 : i < B.length := by omega
  have := List.chain'_iff_get.mp hmono i (by omega)
  simpa [List.getD_eq_getElem?_getD, List.getElem?_eq_getElem, h1, hi,
    List.get_eq_getElem] using this

/-- C5: in continual mode (`baseline = False`) the splitter returns
`len(boundaries) - 1 = k` chunks; chunk `i` is exactly the slice
`data[B[i] : B[i+1]]` of the shuffled dataset, and when the boundaries are
monotone and within the dataset length its size is the boundary difference
`B[i+1] - B[i]`. -/
theorem make_set_splits_chunk_spans {α : Type*} (data : List α) (B : List ℕ)
    (k : ℕ) (hlen : B.length = k + 1) (hmono : List.Chain' (· ≤ ·) B)
    (hN : ∀ x ∈ B, x ≤ data.length) :
    (_make_set_splits false B data).length = k ∧
    ∀ i, i < k →
      (_make_set_splits false B data).getD i [] =
        pySlice data (B.getD i 0) (B.getD (i + 1) 0) ∧
      ((_make_set_splits false B data).getD i []).length =
        B.getD (i + 1) 0 - B.getD i 0 := by
  have hlength : (_make_set_splits false B data).length = k := by
    simp [_make_set_splits]
    omega
  refine ⟨hlength, fun i hi => ?_⟩
  have hi1 : i + 1 < B.length := by omega
  have hiB : i < B.length := by omega
  have hit : i < B.tail.length := by simp [List.length_tail]; omega
  have hiz : i < (_make_set_splits false B data).length := by omega
  have hgetD : (_make_set_splits false B data).getD i [] =
      pySlice data (B.getD i 0) (B.getD (i + 1) 0) := by
    rw [List.getD_eq_getElem?_getD, List.getElem?_eq_getElem hiz]
    simp only [_make_set_splits, Bool.false_eq_true, if_false] at hiz ⊢
    rw [List.getElem_zipWith]
    simp [List.getD_eq_getElem?_getD, List.getElem?_eq_getElem, hiB, hi1]
  refine ⟨hgetD, ?_⟩
  rw [hgetD]
  have hle : B.getD i 0 ≤ B.getD (i + 1) 0 := chain_getD_le hmono hi1
  have hmem : B.getD (i + 1) 0 ∈ B := by
    rw [List.getD_eq_getElem?_getD, List.getElem?_eq_getElem hi1]
    exact List.getElem_mem hi1
  exact pySlice_length data (hN _ hmem)

/-- Witness for C5, the spec's scenario: 100 records, boundaries
`[20, 40, 60, 80, 100]`, `baseline = False` give 4 tasks of 20 records each. -/
theorem make_set_splits_chunk_spans_witness :
    (_make_set_splits false [20, 40, 60, 80, 100] (List.range 100)).length = 4 ∧
    ((_make_set_splits false [20, 40, 60, 80, 100] (List.range 100)).getD 0 []).length = 20 ∧
    ((_make_set_splits false [20, 40, 60, 80, 100] (List.range 100)).getD 1 []).length = 20 ∧
    ((_make_set_splits false [20, 40, 60, 80, 100] (List.range 100)).getD 2 []).length = 20 ∧
    ((_make_set_splits false [20, 40, 60, 80, 100] (List.range 100)).getD 3 []).length = 20 := by
  have h := make_set_splits_chunk_spans (List.range 100) [20, 40, 60, 80, 100] 4
    (by decide) (by norm_num [List.chain'_cons]) (by decide)
  exact ⟨h.1, (h.2 0 (by decide)).2, (h.2 1 (by decide)).2,
    (h.2 2 (by decide)).2, (h.2 3 (by decide)).2⟩

/-- C4 counterexample: with boundaries `B = [1, 2]` and shuffled dataset
`[5, 6]` (so `N = 2 ≥ B[-1] = 2`), the concatenated chunks are `[6]`, not a
permutation of the first `B[-1] = 2` shuffled records `[5, 6]`: record `5` at
position `0 < B[0]` is dropped. -/
theorem make_set_splits_concat_counterexample :
    ¬ (((_make_set_splits false [1, 2] [5, 6]).flatten : Multiset ℕ) =
        (([5, 6] : List ℕ).take 2 : Multiset ℕ)) := by
  decide

/-- C4 amended: in continual mode the concatenation of the chunks equals the
slice `data[B[0] : B[-1]]` of the shuffled dataset (records before position
`B[0]` are dropped, so the original claim holds only in the `B[0] = 0` case);
when `B[0] = 0` it equals the first `B[-1]` records, also as a multiset. -/
theorem make_set_splits_concat {α : Type*} (data : List α) (b : ℕ) (l : List ℕ)
    (hmono : List.Chain' (· ≤ ·) (b :: l)) :
    (_make_set_splits false (b :: l) data).flatten =
      pySlice data b ((b :: l).getLastD 0) ∧
    (b = 0 →
      ((_make_set_splits false (b :: l) data).flatten : Multiset α) =
        (data.take ((b :: l).getLastD 0) : Multiset α)) := by
  have hflat : (_make_set_splits false (b :: l) data).flatten =
      pySlice data b ((b :: l).getLastD 0) := by
    simpa [_make_set_splits] using join_splits data b l hmono
  refine ⟨hflat, fun hb => ?_⟩
  subst hb
  rw [hflat]
  simp [pySlice]

/-- Witness for the amended C4 at the counterexample's input: with
`B = [1, 2]` and dataset `[5, 6]` the concatenation is the slice
`data[1:2] = [6]`. -/
theorem make_set_splits_concat_witness :
    (_make_set_splits false [1, 2] [(5 : ℕ), 6]).flatten = pySlice [5, 6] 1 2 :=
  (make_set_splits_concat [5, 6] 1 [2] (by norm_num [List.chain'_cons])).1

/-- C6 counterexample: on the non-increasing boundary list `[2, 1]` with a
3-record dataset the splitter raises nothing and returns a chunk list (one
chunk, empty): Python's slice `data[2:1]` is `[]`, no validation exists. -/
theorem make_set_splits_no_raise_counterexample :
    _make_set_splits false [2, 1] [(0 : ℕ), 1, 2] = [[]] := by
  decide

/-- C6 amended: the splitter performs no boundary validation and never raises:
for every boundary list it returns `len(B) - 1` chunks, and every adjacent
boundary pair with `B[i+1] ≤ B[i]` simply produces an empty chunk (Python
slice semantics). -/
theorem make_set_splits_no_raise {α : Type*} (data : List α) (B : List ℕ) :
    (_make_set_splits false B data).length = B.length - 1 ∧
    ∀ i, i + 1 < B.length → B.getD (i + 1) 0 ≤ B.getD i 0 →
      (_make_set_splits false B data).getD i [] = [] := by
  refine ⟨by simp [_make_set_splits], fun i hi1 hle => ?_⟩
  have hiB : i < B.length := by omega
  have hiz : i < (_make_set_splits false B data).length := by
    simp [_make_set_splits]
    omega
  rw [List.getD_eq_getElem?_getD, List.getElem?_eq_getElem hiz]
  simp only [_make_set_splits, Bool.false_eq_true, if_false] at hiz ⊢
  rw [List.getElem_zipWith]
  rw [List.getD_eq_getElem?_getD, List.getD_eq_getElem?_getD,
    List.getElem?_eq_getElem hi1, List.getElem?_eq_getElem hiB] at hle
  simp only [List.getElem_tail, Option.getD_some] at hle ⊢
  simp [pySlice, Nat.sub_eq_zero_of_le, hle]

/-- Witness for the amended C6 at the counterexample's input: boundaries
`[2, 1]` give one chunk and that chunk is empty. -/
theorem make_set_splits_no_raise_witness :
    (_make_set_splits false [2, 1] [(0 : ℕ), 1, 2]).length = 1 ∧
    (_make_set_splits false [2, 1] [(0 : ℕ), 1, 2]).getD 0 [] = [] :=
  ⟨(make_set_splits_no_raise [(0 : ℕ), 1, 2] [2, 1]).1,
    (make_set_splits_no_raise [(0 : ℕ), 1, 2] [2, 1]).2 0 (by decide) (by decide)⟩

/-! ## BiEncoder.configure_scheduler

```python
warmup_steps = self.cfg.biencoder.warmup_steps
total_training_steps = self.max_iterations * 30

def lr_lambda(current_step):
    if current_step < warmup_steps:
        return float(current_step) / float(max(1, warmup_steps))
    return max(
        1e-7,
        float(total_training_steps - current_step) / float(max(1, total_training_steps - warmup_steps)),
    )
```

Python ints subtract without truncation, so differences live in `ℤ`; the float
quotients are modelled exactly in `ℚ`. -/

def total_training_steps (max_iterations : ℕ) : ℕ := max_iterations * 30

def lr_lambda (warmup_steps total_steps current_step : ℕ) : ℚ :=
  if current_step < warmup_steps then
    (current_step : ℚ) / ((max 1 warmup_steps : ℕ) : ℚ)
  else
    max (1 / 10 ^ 7)
      ((((total_steps : ℤ) - (current_step : ℤ)) : ℚ) /
        (((max 1 ((total_steps : ℤ) - (warmup_steps : ℤ))) : ℤ) : ℚ))

/-- C7 counterexample: the learning-rate factor is *not* floored at `1e-7`
everywhere: at step 0 of a warmup of 2 (total steps `2 * 30 = 60`) the factor
is `0/2 = 0 < 1e-7`; the floor is applied only in the decay branch. -/
theorem lr_lambda_floor_counterexample :
    lr_lambda 2 (total_training_steps 2) 0 < 1 / 10 ^ 7 := by
  norm_num [lr_lambda, total_training_steps]

/-- C7 amended: for `warmup_steps > 0` the factor equals
`step / warmup_steps` during warmup (hence `0.5` at step `warmup_steps / 2`
for even warmup), is monotonically non-decreasing for steps below
`warmup_steps`, is monotonically non-increasing for steps at or above
`warmup_steps`, and is at least the floor `1e-7` for every step at or above
`warmup_steps` (during warmup it can drop to `0`, at step 0). -/
theorem lr_lambda_schedule (w T : ℕ) (hw : 0 < w) :
    (∀ s, s < w → lr_lambda w T s = (s : ℚ) / (w : ℚ)) ∧
    (w % 2 = 0 → lr_lambda w T (w / 2) = 1 / 2) ∧
    (∀ s₁ s₂, s₁ ≤ s₂ → s₂ < w → lr_lambda w T s₁ ≤ lr_lambda w T s₂) ∧
    (∀ s₁ s₂, w ≤ s₁ → s₁ ≤ s₂ → lr_lambda w T s₂ ≤ lr_lambda w T s₁) ∧
    (∀ s, w ≤ s → 1 / 10 ^ 7 ≤ lr_lambda w T s) := by
  have hmax : (max 1 w : ℕ) = w := Nat.max_eq_right hw
  have hwarm : ∀ s, s < w → lr_lambda w T s = (s : ℚ) / (w : ℚ) := by
    intro s hs
    simp [lr_lambda, hs, hmax]
  refine ⟨hwarm, ?_, ?_, ?_, ?_⟩
  · intro heven
    obtain ⟨m, hm⟩ := (Nat.even_iff.mpr heven)
    have hm' : w = 2 * m := by omega
    have hmpos : 0 < m := by omega
    have hhalf : w / 2 = m := by omega
    rw [hhalf, hwarm m (by omega), hm']
    have : (m : ℚ) ≠ 0 := Nat.cast_ne_zero.mpr (by omega)
    push_cast
    field_simp
    ring
  · intro s₁ s₂ h12 h2
    rw [hwarm s₁ (by omega), hwarm s₂ h2]
    have hwpos : (0 : ℚ) < (w : ℚ) := by exact_mod_cast hw
    gcongr
  · intro s₁ s₂ h1 h12
    have h2 : w ≤ s₂ := le_trans h1 h12
    rw [lr_lambda, if_neg (by omega), lr_lambda, if_neg (by omega)]
    have hD : (0 : ℚ) < (((max 1 ((T : ℤ) - (w : ℤ))) : ℤ) : ℚ) := by
      have : (1 : ℤ) ≤ max 1 ((T : ℤ) - (w : ℤ)) := le_max_left _ _
      exact_mod_cast lt_of_lt_of_le zero_lt_one this
    have hnum : (((T : ℤ) - (s₂ : ℤ)) : ℚ) ≤ (((T : ℤ) - (s₁ : ℤ)) : ℚ) := by
      have : (T : ℤ) - (s₂ : ℤ) ≤ (T : ℤ) - (s₁ : ℤ) := by omega
      exact_mod_cast this
    exact max_le_max (le_refl _) (by gcongr)
  · intro s hs
    rw [lr_lambda, if_neg (by omega)]
    exact le_max_left _ _

/-- Witness for the amended C7 with `warmup_steps = 2`,
`total_training_steps = 60`: the factor at step `1 = warmup/2` is `0.5`, and
at step `100` (past the scheduled steps) it is still at least `1e-7`. -/
theorem lr_lambda_schedule_witness :
    lr_lambda 2 60 1 = 1 / 2 ∧ (1 / 10 ^ 7 : ℚ) ≤ lr_lambda 2 60 100 := by
  have h := lr_lambda_schedule 2 60 (by norm_num)
  exact ⟨by simpa using h.2.1 rfl, h.2.2.2.2 100 (by norm_num)⟩

/-! ## BiEncoder._shared_step positive-context indices

```python
positives_idx = [x for x in range(ctx_pooled_out.shape[0]) if x % 2 == 0]
```

The list of positive-context indices handed to `calculate_loss` is the even
positions below the concatenated-context count, whatever the batch holds. -/

def positives_idx (ctx_count : ℕ) : List ℕ :=
  (List.range ctx_count).filter (fun x => x % 2 == 0)

/-- The even positions below `C` are `[2*0, 2*1, …]`, one per query when each
query owns two context slots. -/
theorem positives_idx_eq (C : ℕ) :
    positives_idx C = (List.range ((C + 1) / 2)).map (fun i => 2 * i) := by
  induction C with
  | zero => rfl
  | succ C ih =>
    rw [positives_idx, List.range_succ, List.filter_append, ← positives_idx, ih]
    rcases Nat.even_or_odd C with he | ho
    · have hC2 : C % 2 = 0 := Nat.even_iff.mp he
      have hfil : List.filter (fun x => x % 2 == 0) [C] = [C] := by
        simp [List.filter, hC2]
      have h2 : (C + 1 + 1) / 2 = (C + 1) / 2 + 1 := by omega
      have h3 : 2 * ((C + 1) / 2) = C := by omega
      rw [hfil, h2, List.range_succ, List.map_append]
      simp [h3]
    · have hC2 : C % 2 = 1 := Nat.odd_iff.mp ho
      have hfil : List.filter (fun x => x % 2 == 0) [C] = [] := by
        simp [List.filter, hC2]
      have h2 : (C + 1 + 1) / 2 = (C + 1) / 2 := by omega
      rw [hfil, h2, List.append_nil]

/-- In the concatenation that puts each record's positive context directly
before its hard negative, the positive of record `i` sits at position `2*i`. -/
theorem flatMap_pair_getD {α : Type*} (d : α × α) :
    ∀ (records : List (α × α)) (i : ℕ), i < records.length →
      (records.flatMap (fun r => [r.1, r.2])).getD (2 * i) d.1 =
        (records.getD i d).1 := by
  intro records
  induction records with
  | nil => intro i hi; simp at hi
  | cons r rest ih =>
    intro i hi
    cases i with
    | zero => simp
    | succ j =>
      have h2 : 2 * (j + 1) = 2 * j + 1 + 1 := by ring
      have hflat : (r :: rest).flatMap (fun r => [r.1, r.2]) =
          r.1 :: r.2 :: rest.flatMap (fun r => [r.1, r.2]) := by simp
      rw [hflat, h2, List.getD_cons_succ, List.getD_cons_succ,
        List.getD_cons_succ]
      exact ih j (by simpa using hi)

/-- C10: in every shared train/validation/test step over `C` concatenated
context embeddings, the positive index passed to the loss for query `i` is the
fixed even position `2*i` — a function of the context count only, independent
of batch content; when each of the `Q` records contributes exactly one
positive context immediately followed by one hard negative, the index list has
exactly one entry per record and entry `i` points at the slot holding record
`i`'s positive context. -/
theorem shared_step_positive_indices {α : Type*} (C : ℕ)
    (records : List (α × α)) (d : α × α) :
    ((positives_idx C).length = (C + 1) / 2 ∧
      ∀ i, i < (C + 1) / 2 → (positives_idx C).getD i 0 = 2 * i) ∧
    ((positives_idx (2 * records.length)).length = records.length ∧
      ∀ i, i < records.length →
        (records.flatMap (fun r => [r.1, r.2])).getD
            ((positives_idx (2 * records.length)).getD i 0) d.1 =
          (records.getD i d).1) := by
  have hlen : ∀ C', (positives_idx C').length = (C' + 1) / 2 := by
    intro C'
    rw [positives_idx_eq]
    simp
  have hget : ∀ C' i, i < (C' + 1) / 2 → (positives_idx C').getD i 0 = 2 * i := by
    intro C' i hi
    rw [positives_idx_eq]
    have hi' : i < ((List.range ((C' + 1) / 2)).map (fun i => 2 * i)).length := by
      simpa using hi
    rw [List.getD_eq_getElem?_getD, List.getElem?_eq_getElem hi']
    simp
  refine ⟨⟨hlen C, hget C⟩, ?_, ?_⟩
  · rw [hlen]
    omega
  · intro i hi
    rw [hget (2 * records.length) i (by omega)]
    exact flatMap_pair_getD d records i hi

/-- Witness for C10: two records, each one positive then one hard negative:
context count is 4, the index list is `[0, 2]`, and position `2 = 2*1` of the
concatenation holds record 1's positive context. -/
theorem shared_step_positive_indices_witness :
    (positives_idx 4).length = 2 ∧
    (positives_idx (2 * [( (10:ℕ), 11), (20, 21)].length)).getD 1 0 = 2 ∧
    ([( (10:ℕ), 11), (20, 21)].flatMap (fun r => [r.1, r.2])).getD
        ((positives_idx (2 * [( (10:ℕ), 11), (20, 21)].length)).getD 1 0)
        (0, 0).1 = ([( (10:ℕ), 11), (20, 21)].getD 1 (0, 0)).1 := by
  have h := shared_step_positive_indices 4 [((10 : ℕ), 11), (20, 21)] (0, 0)
  refine ⟨h.1.1, ?_, h.2.2 1 (by norm_num)⟩
  have := h.1.2 1 (by norm_num)
  simpa using this

/-! ## The EWC strategy (src/continual_ranking/continual_learning/ewc.py)

A model is its named parameters (value tensors plus `requires_grad` flags),
its gradient slots, and its train/eval mode.  Autograd — what
`shared_step` + `loss.backward()` write into `p.grad` — is external to the
core, so it is an arbitrary oracle `backward : Model → batch → grads` that
every theorem quantifies over.  Python dict indexing that can raise
`KeyError` (and `p.grad` access that can raise `AttributeError`) is `Option`.

Hook dispatch (`ContinualTrainer` and the `Strategy` base class are not part
of the sources): modelled from the spec, §4.2/§4.3/§9 — the orchestrator
invokes `on_train_start` when a task's training begins and
`on_before_backward` before every backward pass of every task. -/

structure Param where
  name : String
  value : List ℚ
  requires_grad : Bool

structure Model where
  params : List Param
  grads : List (String × List ℚ)
  training : Bool

/-- `pl_module.named_parameters()` as name/value pairs. -/
def named_parameters (m : Model) : List (String × List ℚ) :=
  m.params.map (fun p => (p.name, p.value))

/-- `{n: p for n, p in pl_module.named_parameters() if p.requires_grad}`. -/
def trainable_parameters (m : Model) : List (String × List ℚ) :=
  (m.params.filter (fun p => p.requires_grad)).map (fun p => (p.name, p.value))

/-- The `EWC` object's mutable attributes. -/
structure EWCState where
  ewc_lambda : ℚ
  params : List (String × List ℚ)
  _means : List (String × List ℚ)
  fisher_matrix : List (String × List ℚ)

/-- `EWC.__init__`: `self.params = {}`, `self._means = {}`,
`self.fisher_matrix = {}`; the loop
`for n, p in deepcopy(self.params).items(): self._means[n] = p.data`
iterates an empty dict, so `_means` stays empty. -/
def EWC_init (lam : ℚ) : EWCState :=
  { ewc_lambda := lam, params := [], _means := [], fisher_matrix := [] }

/-! ### Tensor operations (elementwise on flattened rational tensors) -/

def tensorSub (a b : List ℚ) : List ℚ := List.zipWith (fun x y => x - y) a b

def tensorSq (a : List ℚ) : List ℚ := a.map (fun x => x ^ 2)

def tensorMul (a b : List ℚ) : List ℚ := List.zipWith (fun x y => x * y) a b

def tensorSum (a : List ℚ) : ℚ := a.sum

/-! ### EWC._penalty

```python
loss = 0
for n, p in pl_module.named_parameters():
    _loss = self.fisher_matrix[n] * (p - self._means[n]) ** 2
    loss += _loss.sum()
return loss
```
-/

def penalty_loop (fisher means : List (String × List ℚ)) :
    ℚ → List (String × List ℚ) → Option ℚ
  | loss, [] => some loss
  | loss, (n, p) :: rest =>
    match fisher.lookup n, means.lookup n with
    | some f, some m =>
      penalty_loop fisher means
        (loss + tensorSum (tensorMul f (tensorSq (tensorSub p m)))) rest
    | _, _ => none

def _penalty (st : EWCState) (m : Model) : Option ℚ :=
  penalty_loop st.fisher_matrix st._means 0 (named_parameters m)

/-- `EWC.on_before_backward`:
`loss += self.ewc_lambda * self._penalty(pl_module); return loss`. -/
def on_before_backward (st : EWCState) (m : Model) (loss : ℚ) : Option ℚ :=
  (_penalty st m).map (fun p => loss + st.ewc_lambda * p)

/-! ### EWC._diag_fisher

```python
precision_matrices = {}
for n, p in deepcopy(self.params).items():
    p.data.zero_()
    precision_matrices[n] = p.data

pl_module.eval()
for batch_idx, batch in enumerate(dataloader):
    pl_module.zero_grad()
    batch.to(self.device)
    loss, _, _ = pl_module.shared_step(batch, batch_idx)
    loss.backward()

    for n, p in pl_module.named_parameters():
        precision_matrices[n].data += p.grad.data ** 2 / len(dataloader)

return {n: p for n, p in precision_matrices.items()}
```
-/

/-- Zeroed copies of a parameter dict (the `deepcopy` + `zero_()` loop). -/
def zero_like (ps : List (String × List ℚ)) : List (String × List ℚ) :=
  ps.map (fun np => (np.1, np.2.map (fun _ => (0 : ℚ))))

/-- In-place update of one key of a dict of tensors. -/
def update_assoc (l : List (String × List ℚ)) (key : String) (v : List ℚ) :
    List (String × List ℚ) :=
  l.map (fun np => if np.1 = key then (key, v) else np)

/-- The inner accumulation loop over `pl_module.named_parameters()`:
`precision_matrices[n].data += p.grad.data ** 2 / len(dataloader)`. -/
def accum_loop (grads : List (String × List ℚ)) (nbatches : ℕ) :
    List (String × List ℚ) → List (String × List ℚ) →
      Option (List (String × List ℚ))
  | prec, [] => some prec
  | prec, (n, _) :: rest =>
    match prec.lookup n, grads.lookup n with
    | some pv, some gv =>
      accum_loop grads nbatches
        (update_assoc prec n
          (List.zipWith (fun a g => a + g ^ 2 / (nbatches : ℚ)) pv gv)) rest
    | _, _ => none

/-- The outer loop over the dataloader: zero the gradients, run the task loss
forward/backward (the `backward` oracle yields the new gradient dict), then
accumulate squared gradients.  Only `grads` of the model change. -/
def fisher_loop {β : Type*} (backward : Model → β → List (String × List ℚ))
    (nbatches : ℕ) :
    List (String × List ℚ) → Model → List β →
      Option ((List (String × List ℚ)) × Model)
  | prec, model, [] => some (prec, model)
  | prec, model, batch :: rest =>
    let m1 : Model :=
      { model with
        grads := backward { model with grads := zero_like model.grads } batch }
    (accum_loop m1.grads nbatches prec (named_parameters m1)).bind
      (fun prec1 => fisher_loop backward nbatches prec1 m1 rest)

def _diag_fisher {β : Type*} (backward : Model → β → List (String × List ℚ))
    (st : EWCState) (model : Model) (dataloader : List β) :
    Option ((List (String × List ℚ)) × Model) :=
  fisher_loop backward dataloader.length (zero_like st.params)
    { model with training := false } dataloader

/-- `EWC.on_train_start`:

```python
self.device = pl_module.device
if trainer.task_id > 0:
    self.params = {n: p for n, p in pl_module.named_parameters() if p.requires_grad}
    self.fisher_matrix = self._diag_fisher(pl_module, trainer.train_dataloader)
```

Note `self._means` is never written here (nor anywhere after `__init__`). -/
def on_train_start {β : Type*} (backward : Model → β → List (String × List ℚ))
    (st : EWCState) (task_id : ℕ) (model : Model) (train_dataloader : List β) :
    Option (EWCState × Model) :=
  if 0 < task_id then
    let st1 : EWCState := { st with params := trainable_parameters model }
    match _diag_fisher backward st1 model train_dataloader with
    | some (fisher, model1) => some ({ st1 with fisher_matrix := fisher }, model1)
    | none => none
  else
    some (st, model)

/-! ### Penalty algebra -/

theorem lookup_mem {γ : Type*} {l : List (String × γ)} {n : String} {v : γ}
    (h : l.lookup n = some v) : (n, v) ∈ l := by
  induction l with
  | nil => simp at h
  | cons kv rest ih =>
    obtain ⟨k, b⟩ := kv
    rw [List.lookup_cons] at h
    cases hbeq : (n == k) with
    | false =>
      rw [hbeq] at h
      exact List.mem_cons_of_mem _ (ih h)
    | true =>
      rw [hbeq] at h
      obtain rfl : b = v := by simpa using h
      obtain rfl : n = k := by simpa using hbeq
      exact List.mem_cons_self _ _

/-- One penalty term `(F · (p − m)²).sum()` is non-negative when the Fisher
entries are. -/
theorem penalty_term_nonneg :
    ∀ (f d : List ℚ), (∀ x ∈ f, 0 ≤ x) →
      0 ≤ tensorSum (tensorMul f (tensorSq d)) := by
  intro f
  induction f with
  | nil => intro d _; simp [tensorMul, tensorSum]
  | cons a f ih =>
    intro d hf
    cases d with
    | nil => simp [tensorMul, tensorSq, tensorSum]
    | cons b d =>
      have h1 : 0 ≤ a := hf a (List.mem_cons_self _ _)
      have h2 := ih d (fun x hx => hf x (List.mem_cons_of_mem _ hx))
      simp only [tensorMul, tensorSq, tensorSum, List.map_cons,
        List.zipWith_cons_cons, List.sum_cons] at h2 ⊢
      have h3 : 0 ≤ a * b ^ 2 := mul_nonneg h1 (sq_nonneg b)
      linarith

/-- One penalty term vanishes when every Fisher entry is zero. -/
theorem penalty_term_zero :
    ∀ (f d : List ℚ), (∀ x ∈ f, x = 0) →
      tensorSum (tensorMul f (tensorSq d)) = 0 := by
  intro f
  induction f with
  | nil => intro d _; simp [tensorMul, tensorSum]
  | cons a f ih =>
    intro d hf
    cases d with
    | nil => simp [tensorMul, tensorSq, tensorSum]
    | cons b d =>
      have h1 : a = 0 := hf a (List.mem_cons_self _ _)
      have h2 := ih d (fun x hx => hf x (List.mem_cons_of_mem _ hx))
      simp only [tensorMul, tensorSq, tensorSum, List.map_cons,
        List.zipWith_cons_cons, List.sum_cons] at h2 ⊢
      rw [h1, h2]
      ring

theorem penalty_loop_nonneg {fisher means : List (String × List ℚ)}
    (hF : ∀ nf ∈ fisher, ∀ x ∈ nf.2, 0 ≤ x) :
    ∀ (named : List (String × List ℚ)) (acc P : ℚ),
      0 ≤ acc → penalty_loop fisher means acc named = some P → 0 ≤ P := by
  intro named
  induction named with
  | nil =>
    intro acc P hacc h
    obtain rfl : acc = P := by simpa [penalty_loop] using h
    exact hacc
  | cons np rest ih =>
    intro acc P hacc h
    obtain ⟨n, p⟩ := np
    cases hf : fisher.lookup n with
    | none => simp [penalty_loop, hf] at h
    | some f =>
      cases hm : means.lookup n with
      | none => simp [penalty_loop, hf, hm] at h
      | some m =>
        simp only [penalty_loop, hf, hm] at h
        have hterm : 0 ≤ tensorSum (tensorMul f (tensorSq (tensorSub p m))) :=
          penalty_term_nonneg f _ (hF (n, f) (lookup_mem hf))
        exact ih _ P (by linarith) h

theorem penalty_loop_zero {fisher means : List (String × List ℚ)}
    (hF : ∀ nf ∈ fisher, ∀ x ∈ nf.2, x = 0) :
    ∀ (named : List (String × List ℚ)) (acc P : ℚ),
      penalty_loop fisher means acc named = some P → P = acc := by
  intro named
  induction named with
  | nil =>
    intro acc P h
    obtain rfl : acc = P := by simpa [penalty_loop] using h
    rfl
  | cons np rest ih =>
    intro acc P h
    obtain ⟨n, p⟩ := np
    cases hf : fisher.lookup n with
    | none => simp [penalty_loop, hf] at h
    | some f =>
      cases hm : means.lookup n with
      | none => simp [penalty_loop, hf, hm] at h
      | some m =>
        simp only [penalty_loop, hf, hm] at h
        have hterm : tensorSum (tensorMul f (tensorSq (tensorSub p m))) = 0 :=
          penalty_term_zero f _ (hF (n, f) (lookup_mem hf))
        rw [ih _ P h, hterm, add_zero]

/-- C3: whenever `_penalty` completes, the `λ`-scaled penalty that
`on_before_backward` adds is non-negative (Fisher entries are non-negative by
the data-model invariant, `λ ≥ 0` as configured), and it is exactly `0` when
`λ = 0` or every Fisher entry is zero — for any drift of the parameters from
the snapshot. -/
theorem ewc_penalty_algebra (st : EWCState) (m : Model) (P : ℚ)
    (hP : _penalty st m = some P)
    (hF : ∀ nf ∈ st.fisher_matrix, ∀ x ∈ nf.2, 0 ≤ x)
    (hlam : 0 ≤ st.ewc_lambda) :
    0 ≤ st.ewc_lambda * P ∧
    (st.ewc_lambda = 0 → st.ewc_lambda * P = 0) ∧
    ((∀ nf ∈ st.fisher_matrix, ∀ x ∈ nf.2, x = 0) → st.ewc_lambda * P = 0) ∧
    on_before_backward st m 0 = some (st.ewc_lambda * P) := by
  have h0 : 0 ≤ P := penalty_loop_nonneg hF _ 0 P le_rfl hP
  refine ⟨mul_nonneg hlam h0, fun h => by rw [h, zero_mul], fun hz => ?_, ?_⟩
  · have hP0 : P = 0 := penalty_loop_zero hz _ 0 P hP
    rw [hP0, mul_zero]
  · rw [on_before_backward, hP, Option.map_some']
    rw [zero_add]

/-! ### The Fisher pass is read-only on the weights (C8) -/

/-- Each dataloader iteration rewrites only the gradient slots; the parameter
values pass through every `fisher_loop` step unchanged. -/
theorem fisher_loop_params {β : Type*}
    (backward : Model → β → List (String × List ℚ)) (n : ℕ) :
    ∀ (dl : List β) (prec : List (String × List ℚ)) (model : Model)
      (F : List (String × List ℚ)) (model' : Model),
      fisher_loop backward n prec model dl = some (F, model') →
      model'.params = model.params := by
  intro dl
  induction dl with
  | nil =>
    intro prec model F model' h
    simp only [fisher_loop, Option.some.injEq, Prod.mk.injEq] at h
    rw [← h.2]
  | cons b rest ih =>
    intro prec model F model' h
    simp only [fisher_loop, Option.bind_eq_some] at h
    obtain ⟨prec1, _, hrec⟩ := h
    simpa using ih prec1 _ F model' hrec

/-- C8: the Fisher-estimation pass — zero gradients, forward, backward,
accumulate squared gradients per batch — leaves every model parameter value
(name, value, `requires_grad` flag) unchanged, for every dataloader, gradient
oracle and starting model. -/
theorem diag_fisher_frame {β : Type*}
    (backward : Model → β → List (String × List ℚ)) (st : EWCState)
    (model : Model) (dl : List β) (F : List (String × List ℚ)) (model' : Model)
    (h : _diag_fisher backward st model dl = some (F, model')) :
    model'.params = model.params := by
  rw [_diag_fisher] at h
  simpa using fisher_loop_params backward dl.length dl _ _ F model' h

/-- Witness for C8: one parameter `w = [1]`, one batch whose backward writes
gradient `[2]`: the pass completes with Fisher `{w: [2² / 1]} = {w: [4]}` and
the parameters after it equal the parameters before it. -/
theorem diag_fisher_frame_witness :
    _diag_fisher (fun _ _ => [("w", [2])])
        { ewc_lambda := 1, params := [("w", [1])], _means := [],
          fisher_matrix := [] }
        { params := [⟨"w", [1], true⟩], grads := [("w", [0])], training := true }
        [()] =
      some ([("w", [4])],
        { params := [⟨"w", [1], true⟩], grads := [("w", [2])],
          training := false }) ∧
    ({ params := [⟨"w", [1], true⟩], grads := [("w", [2])],
        training := false } : Model).params =
      ({ params := [⟨"w", [1], true⟩], grads := [("w", [0])],
          training := true } : Model).params := by
  have h : _diag_fisher (fun _ _ => [("w", [2])])
      { ewc_lambda := 1, params := [("w", [1])], _means := [],
        fisher_matrix := [] }
      { params := [⟨"w", [1], true⟩], grads := [("w", [0])], training := true }
      [()] =
      some ([("w", [4])],
        { params := [⟨"w", [1], true⟩], grads := [("w", [2])],
          training := false }) := by
    simp [_diag_fisher, fisher_loop, accum_loop, zero_like, named_parameters,
      update_assoc, List.lookup]
    norm_num
  exact ⟨h, diag_fisher_frame (fun _ _ => [("w", [2])]) _ _ [()] _ _ h⟩

/-- Witness for C3: Fisher `{w: [1]}`, snapshot `{w: [0]}`, current parameter
`w = [3]`, `λ = 2`: the penalty completes with value `9` and the scaled
penalty `18` is non-negative. -/
theorem ewc_penalty_algebra_witness :
    _penalty
        { ewc_lambda := 2, params := [("w", [3])], _means := [("w", [0])],
          fisher_matrix := [("w", [1])] }
        { params := [⟨"w", [3], true⟩], grads := [], training := true } =
      some 9 ∧
    (0 : ℚ) ≤ 2 * 9 := by
  have hP : _penalty
      { ewc_lambda := 2, params := [("w", [3])], _means := [("w", [0])],
        fisher_matrix := [("w", [1])] }
      { params := [⟨"w", [3], true⟩], grads := [], training := true } =
      some 9 := by
    simp [_penalty, penalty_loop, named_parameters, List.lookup,
      tensorSub, tensorSq, tensorMul, tensorSum]
    norm_num
  refine ⟨hP, ?_⟩
  exact (ewc_penalty_algebra _ _ 9 hP
    (by intro nf hnf x hx; simp at hnf; simp [hnf] at hx; simp [hx])
    (by norm_num)).1

/-! ### The EWC lifecycle on concrete tasks (C1, C2)

A minimal realistic model: one trainable parameter `w` with value `[1]`. -/

def exampleModel : Model :=
  { params := [⟨"w", [1], true⟩], grads := [("w", [0])], training := true }

/-- A gradient oracle whose backward pass writes gradient `0` for `w`. -/
def zeroBackward : Model → Unit → List (String × List ℚ) :=
  fun _ _ => [("w", [0])]

/-- C1 (code bug): at the start of task 1 `on_train_start` stores the snapshot
of the trainable parameters in `self.params` and computes a Fisher matrix, but
`self._means` — the anchor that `_penalty` reads — is never written and stays
empty; consequently the first `on_before_backward` of task 1 raises `KeyError`
(`none`) at the first model parameter instead of adding the penalty
`λ · Σ Fisher[n]·(param − snapshot[n])²` claimed by the spec. -/
theorem ewc_task1_penalty_keyerror :
    on_train_start zeroBackward (EWC_init 1) 1 exampleModel [()] =
      some ({ ewc_lambda := 1, params := [("w", [1])], _means := [],
              fisher_matrix := [("w", [0])] },
            { params := [⟨"w", [1], true⟩], grads := [("w", [0])],
              training := false }) ∧
    on_before_backward
        { ewc_lambda := 1, params := [("w", [1])], _means := [],
          fisher_matrix := [("w", [0])] }
        { params := [⟨"w", [1], true⟩], grads := [("w", [0])],
          training := false } 5 = none := by
  constructor
  · simp [on_train_start, _diag_fisher, fisher_loop, accum_loop, zero_like,
      named_parameters, trainable_parameters, update_assoc, EWC_init,
      exampleModel, zeroBackward, List.lookup]
  · simp [on_before_backward, _penalty, penalty_loop, named_parameters,
      List.lookup]

/-- C2 (code bug): at task 0 `on_train_start` is inert — no Fisher matrix is
computed, the strategy state and the model come back unchanged — but
`on_before_backward` has no task guard: invoked before the first backward pass
of task 0 it evaluates the penalty against the empty `fisher_matrix` dict and
raises `KeyError` (`none`) at the first model parameter, instead of leaving
the base loss `5` unchanged. -/
theorem ewc_task0_not_inert :
    on_train_start zeroBackward (EWC_init 1) 0 exampleModel [()] =
      some (EWC_init 1, exampleModel) ∧
    on_before_backward (EWC_init 1) exampleModel 5 = none := by
  constructor
  · simp [on_train_start]
  · simp [on_before_backward, _penalty, penalty_loop, named_parameters,
      EWC_init, exampleModel, List.lookup]

/-! ## Experiment.run_training task-id assignment

```python
id_ = self.cfg.experiment.get('id')
for i, (train_dataloader, val_dataloader) in enumerate(...):
    ...
    self.experiment_id = i if not id_ else id_
    self.model.experiment_id = self.experiment_id
    self.trainer.task_id = self.experiment_id
```

`cfg.experiment.get('id')` is `None` when no override is supplied; Python's
`not id_` is `True` both for `None` and for `0`. -/

def effective_task_id (i : ℕ) (id_ : Option ℕ) : ℕ :=
  match id_ with
  | none => i
  | some v => if v = 0 then i else v

/-- C9 counterexample: at stream position 1 with the supplied override id `0`,
the task id used for the trainer, model and artifact names is `1` — the
falsy override `0` is ignored, contradicting the claim that any supplied
override (including `0`) is used. -/
theorem effective_task_id_zero_override_counterexample :
    effective_task_id 1 (some 0) = 1 ∧ effective_task_id 1 (some 0) ≠ 0 := by
  constructor <;> decide

/-- C9 amended: the task id equals the stream position `i` when no override is
supplied *or when the supplied override is the falsy value `0`*, and equals
the override only when the override is non-zero. -/
theorem effective_task_id_assignment (i v : ℕ) :
    effective_task_id i none = i ∧
    effective_task_id i (some 0) = i ∧
    (v ≠ 0 → effective_task_id i (some v) = v) := by
  refine ⟨rfl, rfl, fun hv => ?_⟩
  simp [effective_task_id, hv]

/-- Witness for the amended C9: stream position 3 with non-zero override 7
yields task id 7; without an override it yields 3. -/
theorem effective_task_id_assignment_witness :
    effective_task_id 3 (some 7) = 7 ∧ effective_task_id 3 none = 3 :=
  ⟨(effective_task_id_assignment 3 7).2.2 (by decide),
    (effective_task_id_assignment 3 7).1⟩

end ContinualRanking
